import Mathlib

/-!
Verification of the order model, flattening operations and reporting
computations of the benchmark-async-vs-sync repository.

Modelling conventions:
* Rust strings are modelled as lists of natural numbers, one per code
  point (all the strings involved are ASCII, so this coincides with the
  byte sequence).  String formatting of an integer is modelled by
  decimal digits, and string concatenation by list append.
* Machine integers (u64, usize) are modelled as naturals; where the
  source performs u64 addition the model reduces modulo 2 ^ 64, making
  the wrap-around explicit.  Subtraction only ever subtracts a value
  clamped to be no larger than the minuend, matching the source.
* f64 values are modelled as rationals.  Every comparison settled below
  is at a distance from the relevant threshold that dwarfs the rounding
  of one double-precision division, so the rational model decides each
  comparison the same way the floating-point code does.
* A Rust HashMap is modelled as the association list of its entries in
  insertion order; insert replaces the value of an existing key in
  place and otherwise appends.  Entry count is the list length and
  lookup is association-list lookup.  Iteration order of a HashMap is
  unspecified in Rust, so theorems that depend on iteration order
  quantify over permutations.
* Randomly drawn values (side, kind, quantity, price, timestamp) are
  passed to the model as explicit arguments; the range of a draw, such
  as quantity being drawn from 1..10000, appears as a hypothesis.
-/

/-- Code-point list standing for a Rust string. -/
abbrev Str : Type := List Nat

/-- Code points of a Lean string literal, used to transcribe the string
literals of the source. -/
def strLit (s : String) : Str :=
  s.data.map Char.toNat

/-- Decimal digits of a natural number, least significant first,
computed with an explicit fuel bound so the kernel can evaluate it. -/
def digitsRevAux : Nat → Nat → List Nat
  | 0, _ => []
  | fuel + 1, n => if n = 0 then [] else n % 10 :: digitsRevAux fuel (n / 10)

/-- Decimal digit list of a natural number, most significant first,
with 0 rendered as the single digit 0; this is how Rust formats an
unsigned integer. -/
def fmtNat (n : Nat) : Str :=
  if n = 0 then [48] else ((digitsRevAux n n).map (fun d => 48 + d)).reverse

theorem digitsRevAux_eq_digits (fuel : Nat) :
    ∀ n : Nat, n ≤ fuel → digitsRevAux fuel n = Nat.digits 10 n := by
  induction fuel with
  | zero =>
    intro n hn
    have : n = 0 := by omega
    simp [this, digitsRevAux]
  | succ f ih =>
    intro n hn
    by_cases h0 : n = 0
    · simp [h0, digitsRevAux]
    · have hpos : 0 < n := Nat.pos_of_ne_zero h0
      have hdiv : n / 10 ≤ f := by
        have := Nat.div_lt_self hpos (by norm_num : (1:Nat) < 10)
        omega
      rw [digitsRevAux, if_neg h0, ih (n / 10) hdiv,
        Nat.digits_def' (by norm_num : (1:Nat) < 10) hpos]

theorem fmtNat_eq_digits (n : Nat) :
    fmtNat n = if n = 0 then [48] else ((Nat.digits 10 n).map (fun d => 48 + d)).reverse := by
  rw [fmtNat, digitsRevAux_eq_digits n n le_rfl]

/-- The modulus of u64 arithmetic. -/
def U64_MOD : Nat := 2 ^ 64

/-- OrderSide from the benchmark source. -/
inductive OrderSide : Type
  | Buy
  | Sell
deriving DecidableEq

/-- OrderType from the benchmark source. -/
inductive OrderType : Type
  | Market
  | Limit
  | Stop
  | StopLimit
deriving DecidableEq

/-- OrderStatus from the benchmark source. -/
inductive OrderStatus : Type
  | New
  | PartiallyFilled
  | Filled
  | Cancelled
  | Rejected
deriving DecidableEq

/-- Order record from the benchmark source; price is the f64 limit
price modelled as a rational. -/
structure Order : Type where
  order_id : Nat
  symbol : Str
  side : OrderSide
  order_type : OrderType
  quantity : Nat
  price : ℚ
  filled_quantity : Nat
  remaining_quantity : Nat
  status : OrderStatus
  timestamp : Nat
  client_id : Str
deriving DecidableEq

/-- Order::new.  The randomly drawn side, kind, quantity, price and
timestamp are passed explicitly; the source draws quantity from the
range 1..10000, which theorems record as a hypothesis. -/
def Order.new (order_id : Nat) (symbol : Str) (client_id : Str)
    (side : OrderSide) (order_type : OrderType) (quantity : Nat)
    (price : ℚ) (timestamp : Nat) : Order :=
  { order_id := order_id
    symbol := symbol
    side := side
    order_type := order_type
    quantity := quantity
    price := price
    filled_quantity := 0
    remaining_quantity := quantity
    status := OrderStatus.New
    timestamp := timestamp
    client_id := client_id }

/-- Order::update_fill.  The requested fill is clamped to the remaining
quantity; filled is increased by the clamped amount with u64 wrap-around
made explicit, remaining is decreased by it, and the status is then set
to Filled when nothing remains and to PartiallyFilled otherwise. -/
def Order.update_fill (o : Order) (fill_quantity : Nat) : Order :=
  let actual_fill := min fill_quantity o.remaining_quantity
  let filled := (o.filled_quantity + actual_fill) % U64_MOD
  let remaining := o.remaining_quantity - actual_fill
  { o with
      filled_quantity := filled
      remaining_quantity := remaining
      status := if remaining = 0 then OrderStatus.Filled
                else OrderStatus.PartiallyFilled }

/-- Result of applying a whole sequence of update_fill calls in order. -/
def Order.appliedFills (o : Order) (fills : List Nat) : Order :=
  fills.foldl Order.update_fill o

/-- The status law stated in the specification: remaining zero means
Filled, a filled amount strictly between zero and the quantity means
PartiallyFilled, and filled zero means New. -/
def statusSpec (o : Order) : Prop :=
  (o.remaining_quantity = 0 → o.status = OrderStatus.Filled) ∧
  (0 < o.filled_quantity → o.filled_quantity < o.quantity →
      o.status = OrderStatus.PartiallyFilled) ∧
  (o.filled_quantity = 0 → o.status = OrderStatus.New)

instance (o : Order) : Decidable (statusSpec o) := by
  unfold statusSpec; infer_instance

/-- A concrete order as Order::new produces it, used as a test vehicle:
quantity 5 is a legal draw from 1..10000. -/
def sampleOrder : Order :=
  Order.new 0 (strLit "STOCK_0") (strLit "CLIENT_0")
    OrderSide.Buy OrderType.Market 5 500 1650000000

example : sampleOrder.filled_quantity = 0 ∧ sampleOrder.status = OrderStatus.New := by
  constructor <;> rfl

/-- Inductive invariant of the reachable fill states: the quantities sum
correctly, the quantity is a positive u64 value, and either no fill has
landed yet (fresh state, status New) or some fill has landed and the
status is Filled or PartiallyFilled according to the remaining amount. -/
def goodState (o : Order) : Prop :=
  o.filled_quantity + o.remaining_quantity = o.quantity ∧
  1 ≤ o.quantity ∧ o.quantity < U64_MOD ∧
  ((o.filled_quantity = 0 ∧ o.remaining_quantity = o.quantity ∧
      o.status = OrderStatus.New) ∨
   (0 < o.filled_quantity ∧
      (o.remaining_quantity = 0 → o.status = OrderStatus.Filled) ∧
      (o.remaining_quantity ≠ 0 → o.status = OrderStatus.PartiallyFilled)))

theorem statusSpec_of_goodState (o : Order) (h : goodState o) : statusSpec o := by
  obtain ⟨hsum, hq1, -, hcase⟩ := h
  rcases hcase with ⟨hf0, hrq, hst⟩ | ⟨hfpos, hfill, hpart⟩
  · refine ⟨fun hr => absurd (hrq ▸ hr) (by omega), fun hpos _ => absurd hf0 (by omega), fun _ => hst⟩
  · exact ⟨hfill, fun _ hlt => hpart (by omega), fun h0 => absurd hfpos (by omega)⟩

theorem goodState_new (order_id : Nat) (symbol client_id : Str) (side : OrderSide)
    (order_type : OrderType) (quantity : Nat) (price : ℚ) (timestamp : Nat)
    (h1 : 1 ≤ quantity) (h2 : quantity < U64_MOD) :
    goodState (Order.new order_id symbol client_id side order_type quantity price timestamp) := by
  refine ⟨by simp [Order.new], by simpa [Order.new] using h1, by simpa [Order.new] using h2, ?_⟩
  exact Or.inl ⟨rfl, rfl, rfl⟩

theorem update_fill_filled_quantity (o : Order) (f : Nat) :
    (o.update_fill f).filled_quantity
      = (o.filled_quantity + min f o.remaining_quantity) % U64_MOD := rfl

theorem update_fill_remaining_quantity (o : Order) (f : Nat) :
    (o.update_fill f).remaining_quantity
      = o.remaining_quantity - min f o.remaining_quantity := rfl

theorem update_fill_status (o : Order) (f : Nat) :
    (o.update_fill f).status
      = if o.remaining_quantity - min f o.remaining_quantity = 0
        then OrderStatus.Filled else OrderStatus.PartiallyFilled := rfl

theorem update_fill_quantity (o : Order) (f : Nat) :
    (o.update_fill f).quantity = o.quantity := rfl

theorem goodState_update_fill (o : Order) (f : Nat) (hf : 0 < f)
    (h : goodState o) : goodState (o.update_fill f) := by
  obtain ⟨hsum, hq1, hqM, hcase⟩ := h
  have hminR : min f o.remaining_quantity ≤ o.remaining_quantity := Nat.min_le_right _ _
  have hmod : (o.filled_quantity + min f o.remaining_quantity) % U64_MOD
      = o.filled_quantity + min f o.remaining_quantity := Nat.mod_eq_of_lt (by omega)
  refine ⟨?_, ?_, ?_, ?_⟩
  · rw [update_fill_filled_quantity, update_fill_remaining_quantity,
      update_fill_quantity, hmod]
    omega
  · rw [update_fill_quantity]; exact hq1
  · rw [update_fill_quantity]; exact hqM
  · rcases hcase with ⟨hf0, hrq, -⟩ | ⟨hfpos, -, -⟩
    · have hminpos : 0 < min f o.remaining_quantity := lt_min hf (by omega)
      refine Or.inr ⟨?_, ?_, ?_⟩
      · rw [update_fill_filled_quantity, hmod]; omega
      · intro hr0
        rw [update_fill_status]
        rw [update_fill_remaining_quantity] at hr0
        simp [hr0]
      · intro hr0
        rw [update_fill_status]
        rw [update_fill_remaining_quantity] at hr0
        simp [hr0]
    · refine Or.inr ⟨?_, ?_, ?_⟩
      · rw [update_fill_filled_quantity, hmod]; omega
      · intro hr0
        rw [update_fill_status]
        rw [update_fill_remaining_quantity] at hr0
        simp [hr0]
      · intro hr0
        rw [update_fill_status]
        rw [update_fill_remaining_quantity] at hr0
        simp [hr0]

theorem goodState_appliedFills (fills : List Nat) (hpos : ∀ f ∈ fills, 0 < f)
    (o : Order) (h : goodState o) : goodState (o.appliedFills fills) := by
  induction fills generalizing o with
  | nil => exact h
  | cons f t ih =>
    have hstep := goodState_update_fill o f (hpos f (List.mem_cons_self f t)) h
    exact ih (fun g hg => hpos g (List.mem_cons_of_mem f hg)) (o.update_fill f) hstep

theorem sum_invariant_update_fill (o : Order) (f : Nat)
    (hsum : o.filled_quantity + o.remaining_quantity = o.quantity)
    (hqM : o.quantity < U64_MOD) :
    (o.update_fill f).filled_quantity + (o.update_fill f).remaining_quantity
      = (o.update_fill f).quantity := by
  have hminR : min f o.remaining_quantity ≤ o.remaining_quantity := Nat.min_le_right _ _
  have hmod : (o.filled_quantity + min f o.remaining_quantity) % U64_MOD
      = o.filled_quantity + min f o.remaining_quantity := Nat.mod_eq_of_lt (by omega)
  rw [update_fill_filled_quantity, update_fill_remaining_quantity,
    update_fill_quantity, hmod]
  omega

theorem sum_invariant_appliedFills (fills : List Nat) (o : Order)
    (hsum : o.filled_quantity + o.remaining_quantity = o.quantity)
    (hqM : o.quantity < U64_MOD) :
    (o.appliedFills fills).filled_quantity + (o.appliedFills fills).remaining_quantity
      = (o.appliedFills fills).quantity ∧ (o.appliedFills fills).quantity = o.quantity := by
  induction fills generalizing o with
  | nil => exact ⟨hsum, rfl⟩
  | cons f t ih =>
    have hstep := sum_invariant_update_fill o f hsum hqM
    have h2 := ih (o.update_fill f) hstep (by rw [update_fill_quantity]; exact hqM)
    simp only [Order.appliedFills, List.foldl_cons] at h2 ⊢
    exact ⟨h2.1, by rw [h2.2, update_fill_quantity]⟩

/-- C1 counterexample: a fresh order from Order::new (quantity 5, a
legal draw from 1..10000) subjected to a single update_fill call with
a zero fill quantity has filled_quantity 0 but status PartiallyFilled,
so its status is not the pure function of the quantities stated in the
specification. -/
theorem c1_zero_fill_breaks_status_spec :
    ¬ statusSpec (sampleOrder.appliedFills [0]) := by decide

/-- C1 (amended): for every order produced by Order::new and every
sequence of update_fill calls whose fill quantities are all strictly
positive, the status equals the pure function of the quantities:
remaining zero implies Filled, filled strictly between zero and
quantity implies PartiallyFilled, filled zero implies New. -/
theorem c1_status_spec_of_pos_fills (order_id : Nat) (symbol client_id : Str)
    (side : OrderSide) (order_type : OrderType) (quantity : Nat) (price : ℚ)
    (timestamp : Nat) (h1 : 1 ≤ quantity) (h2 : quantity < 10000)
    (fills : List Nat) (hpos : ∀ f ∈ fills, 0 < f) :
    statusSpec ((Order.new order_id symbol client_id side order_type quantity
      price timestamp).appliedFills fills) := by
  refine statusSpec_of_goodState _ (goodState_appliedFills fills hpos _ ?_)
  exact goodState_new order_id symbol client_id side order_type quantity price
    timestamp h1 (lt_trans h2 (by norm_num [U64_MOD]))

/-- C1 witness: the amended statement evaluated on the concrete order of
the specification example, quantity 5 with fills 3 then 10. -/
theorem c1_witness :
    statusSpec (sampleOrder.appliedFills [3, 10]) :=
  c1_status_spec_of_pos_fills 0 (strLit "STOCK_0") (strLit "CLIENT_0")
    OrderSide.Buy OrderType.Market 5 500 1650000000
    (by norm_num) (by norm_num) [3, 10] (by decide)

/-- C2 counterexample: update_fill with fill quantity zero is not a
no-op on a fresh order: it rewrites the status from New to
PartiallyFilled even though nothing was filled. -/
theorem c2_zero_fill_not_noop :
    (sampleOrder.update_fill 0).status ≠ sampleOrder.status := by decide

/-- C2 (amended): update_fill with a zero fill quantity leaves
filled_quantity, remaining_quantity and every other non-status field
unchanged, but always recomputes the status to Filled when the
remaining quantity is zero and to PartiallyFilled otherwise; it is a
no-op only on orders whose status already equals that recomputation,
and in particular not on a New order with positive remaining quantity. -/
theorem c2_update_fill_zero (o : Order) (h : o.filled_quantity < U64_MOD) :
    o.update_fill 0 =
      { o with status := if o.remaining_quantity = 0 then OrderStatus.Filled
                         else OrderStatus.PartiallyFilled } := by
  unfold Order.update_fill
  simp [Nat.mod_eq_of_lt h]

/-- C2 witness: the amended statement evaluated on a concrete fresh
order with remaining quantity 5. -/
theorem c2_witness :
    sampleOrder.filled_quantity < U64_MOD ∧
    sampleOrder.update_fill 0 =
      { sampleOrder with
          status := if sampleOrder.remaining_quantity = 0 then OrderStatus.Filled
                    else OrderStatus.PartiallyFilled } :=
  ⟨by norm_num [sampleOrder, Order.new, U64_MOD],
   c2_update_fill_zero sampleOrder (by norm_num [sampleOrder, Order.new, U64_MOD])⟩

/-- C3: for every order produced by Order::new (quantity drawn from
1..10000) and every sequence of update_fill calls with arbitrary fill
quantities, filled_quantity plus remaining_quantity equals quantity
after construction and after each call. -/
theorem c3_sum_invariant (order_id : Nat) (symbol client_id : Str)
    (side : OrderSide) (order_type : OrderType) (quantity : Nat) (price : ℚ)
    (timestamp : Nat) (_h1 : 1 ≤ quantity) (h2 : quantity < 10000)
    (fills : List Nat) :
    ((Order.new order_id symbol client_id side order_type quantity price
        timestamp).appliedFills fills).filled_quantity
      + ((Order.new order_id symbol client_id side order_type quantity price
        timestamp).appliedFills fills).remaining_quantity
      = quantity := by
  have h := sum_invariant_appliedFills fills
    (Order.new order_id symbol client_id side order_type quantity price timestamp)
    (by simp [Order.new]) (by simpa [Order.new] using lt_trans h2 (by norm_num [U64_MOD]))
  have hq : (Order.new order_id symbol client_id side order_type quantity price
      timestamp).quantity = quantity := rfl
  omega

/-- C3 witness: the invariant evaluated on a concrete order of quantity
5 after fills 3, 0 and 10. -/
theorem c3_witness :
    ((sampleOrder.appliedFills [3, 0, 10]).filled_quantity
      + (sampleOrder.appliedFills [3, 0, 10]).remaining_quantity = 5) :=
  c3_sum_invariant 0 (strLit "STOCK_0") (strLit "CLIENT_0")
    OrderSide.Buy OrderType.Market 5 500 1650000000
    (by norm_num) (by norm_num) [3, 0, 10]

/-- C4: for every order and every requested fill quantity strictly
greater than the remaining quantity, update_fill produces exactly the
same order state as update_fill with the remaining quantity itself: the
fill is clamped and can never over-fill or drive remaining negative. -/
theorem c4_update_fill_clamped (o : Order) (x : Nat)
    (h : o.remaining_quantity < x) :
    o.update_fill x = o.update_fill o.remaining_quantity := by
  unfold Order.update_fill
  rw [Nat.min_eq_right (le_of_lt h), Nat.min_self]

/-- C4 witness: clamping evaluated on a concrete order with remaining
quantity 5 and requested fill 10. -/
theorem c4_witness :
    sampleOrder.remaining_quantity < 10 ∧
    sampleOrder.update_fill 10 = sampleOrder.update_fill sampleOrder.remaining_quantity :=
  ⟨by norm_num [sampleOrder, Order.new],
   c4_update_fill_clamped sampleOrder 10 (by norm_num [sampleOrder, Order.new])⟩

theorem fmtNat_digit_mem (n : Nat) : ∀ c ∈ fmtNat n, 48 ≤ c ∧ c ≤ 57 := by
  intro c hc
  rw [fmtNat_eq_digits] at hc
  by_cases h0 : n = 0
  · rw [if_pos h0] at hc
    simp only [List.mem_singleton] at hc
    omega
  · rw [if_neg h0] at hc
    simp only [List.mem_reverse, List.mem_map] at hc
    obtain ⟨d, hd, rfl⟩ := hc
    have := Nat.digits_lt_base (by norm_num) hd
    omega

theorem fmtNat_injective : Function.Injective fmtNat := by
  have hmap : Function.Injective (fun d : Nat => 48 + d) := by
    intro a b h
    have h2 : 48 + a = 48 + b := h
    omega
  have hzero : ∀ n : Nat, n ≠ 0 →
      ((Nat.digits 10 n).map (fun d => 48 + d)).reverse ≠ [48] := by
    intro n hn h
    rw [List.reverse_eq_iff] at h
    have h3 : Nat.digits 10 n = [0] :=
      List.map_injective_iff.mpr hmap (by simpa using h)
    have h4 := Nat.ofDigits_digits 10 n
    rw [h3] at h4
    simp [Nat.ofDigits] at h4
    exact hn h4.symm
  intro m n h
  rw [fmtNat_eq_digits, fmtNat_eq_digits] at h
  by_cases hm : m = 0 <;> by_cases hn : n = 0
  · omega
  · rw [if_pos hm, if_neg hn] at h
    exact absurd h.symm (hzero n hn)
  · rw [if_neg hm, if_pos hn] at h
    exact absurd h (hzero m hm)
  · rw [if_neg hm, if_neg hn] at h
    have h2 := List.map_injective_iff.mpr hmap (List.reverse_injective h)
    have h3 := congrArg (Nat.ofDigits 10) h2
    rwa [Nat.ofDigits_digits, Nat.ofDigits_digits] at h3

/-- Splitting a code-point list at a separator that occurs in neither
prefix is unambiguous. -/
theorem append_sep_inj (sep : Nat) :
    ∀ (a c b d : List Nat), sep ∉ a → sep ∉ c →
      a ++ sep :: b = c ++ sep :: d → a = c ∧ b = d := by
  intro a
  induction a with
  | nil =>
    intro c b d _ hc h
    cases c with
    | nil => simpa using h
    | cons x xs =>
      exfalso
      simp only [List.nil_append, List.cons_append, List.cons.injEq] at h
      exact hc (h.1 ▸ List.mem_cons_self x xs)
  | cons y ys ih =>
    intro c b d ha hc h
    cases c with
    | nil =>
      exfalso
      simp only [List.cons_append, List.nil_append, List.cons.injEq] at h
      exact ha (h.1 ▸ List.mem_cons_self y ys)
    | cons x xs =>
      simp only [List.cons_append, List.cons.injEq] at h
      obtain ⟨rfl, h2⟩ := h
      obtain ⟨h3, h4⟩ := ih xs b d
        (fun hm => ha (List.mem_cons_of_mem _ hm))
        (fun hm => hc (List.mem_cons_of_mem _ hm)) h2
      exact ⟨by rw [h3], h4⟩

/-- Model of HashMap::insert on the insertion-order entry list: replace
the value in place when the key is present, append otherwise. -/
def insertKV {α : Type} (m : List (Str × α)) (k : Str) (v : α) : List (Str × α) :=
  if k ∈ m.map Prod.fst then
    m.map (fun p => if p.1 = k then (k, v) else p)
  else m ++ [(k, v)]

theorem insertKV_of_fresh {α : Type} (m : List (Str × α)) (k : Str) (v : α)
    (h : k ∉ m.map Prod.fst) : insertKV m k v = m ++ [(k, v)] := by
  rw [insertKV, if_neg h]

/-- Model of inserting a batch of entries in order (HashMap::extend). -/
def insertAll {α : Type} (m : List (Str × α)) (ps : List (Str × α)) : List (Str × α) :=
  ps.foldl (fun acc p => insertKV acc p.1 p.2) m

theorem insertAll_cons {α : Type} (m : List (Str × α)) (p : Str × α) (t : List (Str × α)) :
    insertAll m (p :: t) = insertAll (insertKV m p.1 p.2) t := rfl

theorem insertAll_of_fresh {α : Type} (ps : List (Str × α)) :
    ∀ m : List (Str × α), (ps.map Prod.fst).Nodup →
      (∀ k ∈ ps.map Prod.fst, k ∉ m.map Prod.fst) →
      insertAll m ps = m ++ ps := by
  induction ps with
  | nil => intro m _ _; simp [insertAll]
  | cons p t ih =>
    intro m hnd hdis
    rw [List.map_cons] at hnd
    have hndc := List.nodup_cons.mp hnd
    have hp : p.1 ∉ m.map Prod.fst := hdis p.1 (by simp)
    rw [insertAll_cons, insertKV_of_fresh m p.1 p.2 hp,
      ih (m ++ [(p.1, p.2)]) hndc.2 ?_]
    · simp
    · intro k hk
      have hkp : k ≠ p.1 := fun he => hndc.1 (he ▸ hk)
      have hkm : k ∉ m.map Prod.fst := hdis k (by simp [hk])
      simp [hkm, hkp]

/-- Exchange label built by create_nested_order_data. -/
def exchangeKey (i : Nat) : Str := strLit "EXCHANGE_" ++ fmtNat i

/-- Order key built by create_nested_order_data for exchange i, slot j. -/
def orderKey (i j : Nat) : Str :=
  strLit "ORD_" ++ fmtNat i ++ strLit "_" ++ fmtNat j

/-- Flattened registry key, exchange and order key joined by a colon. -/
def flatKey (exchange order_id : Str) : Str :=
  exchange ++ strLit ":" ++ order_id

theorem exchangeKey_injective : Function.Injective exchangeKey := by
  intro a b h
  exact fmtNat_injective (List.append_cancel_left h)

theorem orderKey_injective_right (i : Nat) : Function.Injective (orderKey i) := by
  intro a b h
  exact fmtNat_injective (List.append_cancel_left h)

theorem colon_not_mem_exchangeKey (i : Nat) : 58 ∉ exchangeKey i := by
  intro h
  rcases List.mem_append.mp h with h1 | h2
  · exact absurd h1 (by decide)
  · obtain ⟨h48, h57⟩ := fmtNat_digit_mem i 58 h2
    omega

theorem flatKey_pair_inj (i1 j1 i2 j2 : Nat)
    (h : flatKey (exchangeKey i1) (orderKey i1 j1)
       = flatKey (exchangeKey i2) (orderKey i2 j2)) :
    i1 = i2 ∧ j1 = j2 := by
  unfold flatKey at h
  rw [List.append_assoc, List.append_assoc] at h
  have hc : strLit ":" = [58] := rfl
  rw [hc, List.singleton_append, List.singleton_append] at h
  obtain ⟨h1, h2⟩ := append_sep_inj 58 (exchangeKey i1) (exchangeKey i2) _ _
    (colon_not_mem_exchangeKey i1) (colon_not_mem_exchangeKey i2) h
  have hi : i1 = i2 := exchangeKey_injective h1
  subst hi
  exact ⟨rfl, orderKey_injective_right i1 h2⟩

/-- create_nested_order_data from the benchmark source: for each of E
exchanges, a HashMap of O orders keyed by the order key, itself keyed
by the exchange label.  The order produced for each global index is
passed in as mk, absorbing the random draws of Order::new. -/
def create_nested_order_data (exchanges orders_per_exchange : Nat)
    (mk : Nat → Order) : List (Str × List (Str × Order)) :=
  (List.range exchanges).foldl
    (fun nested_orders i =>
      insertKV nested_orders (exchangeKey i)
        ((List.range orders_per_exchange).foldl
          (fun orders j =>
            insertKV orders (orderKey i j)
              (mk (i * orders_per_exchange + j)))
          []))
    []

/-- sync_order_flatten from the benchmark source: iterate the nested
map, inserting every order under its flattened key. -/
def sync_order_flatten (nested_orders : List (Str × List (Str × Order))) :
    List (Str × Order) :=
  nested_orders.foldl
    (fun flattened p =>
      p.2.foldl (fun fl q => insertKV fl (flatKey p.1 q.1) q.2) flattened)
    []

/-- Per-exchange task body of async_order_flatten: flatten one exchange
group into a fresh local map. -/
def localFlatten (p : Str × List (Str × Order)) : List (Str × Order) :=
  p.2.foldl (fun fl q => insertKV fl (flatKey p.1 q.1) q.2) []

/-- async_order_flatten from the benchmark source: run one task per
exchange group producing local maps, then extend an empty map with each
local result in task order.  Task scheduling cannot influence the local
maps, which are pure; the group order is quantified separately. -/
def async_order_flatten (nested_orders : List (Str × List (Str × Order))) :
    List (Str × Order) :=
  (nested_orders.map localFlatten).foldl
    (fun flattened result => insertAll flattened result) []

/-- Flattened keys contributed by one exchange group. -/
def groupKeys (p : Str × List (Str × Order)) : List Str :=
  p.2.map (fun q => flatKey p.1 q.1)

/-- Flattened entries contributed by one exchange group. -/
def groupPairs (p : Str × List (Str × Order)) : List (Str × Order) :=
  p.2.map (fun q => (flatKey p.1 q.1, q.2))

/-- All flattened entries of a nested map, in iteration order. -/
def flatPairs (nested : List (Str × List (Str × Order))) : List (Str × Order) :=
  (nested.map groupPairs).flatten

/-- All flattened keys of a nested map, in iteration order. -/
def flatKeys (nested : List (Str × List (Str × Order))) : List Str :=
  (nested.map groupKeys).flatten

theorem groupPairs_keys (p : Str × List (Str × Order)) :
    (groupPairs p).map Prod.fst = groupKeys p := by
  simp [groupPairs, groupKeys, List.map_map]

theorem flatPairs_keys (nested : List (Str × List (Str × Order))) :
    (flatPairs nested).map Prod.fst = flatKeys nested := by
  rw [flatPairs, flatKeys, List.map_flatten, List.map_map]
  exact congrArg List.flatten (List.map_congr_left (fun p _ => groupPairs_keys p))

theorem sync_flatten_fold (nested : List (Str × List (Str × Order))) :
    ∀ acc : List (Str × Order),
      (flatKeys nested).Nodup →
      (∀ k ∈ flatKeys nested, k ∉ acc.map Prod.fst) →
      nested.foldl
        (fun flattened p =>
          p.2.foldl (fun fl q => insertKV fl (flatKey p.1 q.1) q.2) flattened)
        acc
        = acc ++ flatPairs nested := by
  induction nested with
  | nil => intro acc _ _; simp [flatPairs]
  | cons p t ih =>
    intro acc hnd hdis
    have hfk : flatKeys (p :: t) = groupKeys p ++ flatKeys t := by
      simp [flatKeys]
    rw [hfk] at hnd hdis
    have hnd' := List.nodup_append.mp hnd
    rw [List.foldl_cons]
    have hinner : p.2.foldl (fun fl q => insertKV fl (flatKey p.1 q.1) q.2) acc
        = insertAll acc (groupPairs p) := by
      simp [insertAll, groupPairs, List.foldl_map]
    rw [hinner,
      insertAll_of_fresh (groupPairs p) acc
        (by rw [groupPairs_keys]; exact hnd'.1)
        (by rw [groupPairs_keys]
            exact fun k hk => hdis k (List.mem_append_left _ hk)),
      ih (acc ++ groupPairs p) hnd'.2.1 ?_]
    · simp [flatPairs, List.append_assoc]
    · intro k hk
      rw [List.map_append, groupPairs_keys]
      intro hmem
      rcases List.mem_append.mp hmem with h1 | h2
      · exact hdis k (List.mem_append_right _ hk) h1
      · exact hnd'.2.2 h2 hk

/-- With pairwise distinct flattened keys, the sequential flatten is
exactly the concatenation of the per-group entry lists. -/
theorem sync_order_flatten_eq (nested : List (Str × List (Str × Order)))
    (hnd : (flatKeys nested).Nodup) :
    sync_order_flatten nested = flatPairs nested := by
  have h := sync_flatten_fold nested [] hnd (by simp)
  simpa [sync_order_flatten] using h

theorem localFlatten_eq (p : Str × List (Str × Order))
    (hnd : (groupKeys p).Nodup) : localFlatten p = groupPairs p := by
  unfold localFlatten
  have h : p.2.foldl (fun fl q => insertKV fl (flatKey p.1 q.1) q.2) []
      = insertAll [] (groupPairs p) := by
    simp [insertAll, groupPairs, List.foldl_map]
  rw [h, insertAll_of_fresh (groupPairs p) []
    (by rw [groupPairs_keys]; exact hnd) (by simp)]
  simp

theorem extend_fold (L : List (List (Str × Order))) :
    ∀ acc : List (Str × Order),
      (L.flatten.map Prod.fst).Nodup →
      (∀ k ∈ L.flatten.map Prod.fst, k ∉ acc.map Prod.fst) →
      L.foldl (fun flattened result => insertAll flattened result) acc
        = acc ++ L.flatten := by
  induction L with
  | nil => intro acc _ _; simp
  | cons l t ih =>
    intro acc hnd hdis
    rw [List.flatten_cons, List.map_append] at hnd hdis
    have hnd' := List.nodup_append.mp hnd
    rw [List.foldl_cons,
      insertAll_of_fresh l acc hnd'.1
        (fun k hk => hdis k (List.mem_append_left _ hk)),
      ih (acc ++ l) hnd'.2.1 ?_]
    · simp [List.append_assoc]
    · intro k hk
      rw [List.map_append]
      intro hmem
      rcases List.mem_append.mp hmem with h1 | h2
      · exact hdis k (List.mem_append_right _ hk) h1
      · exact hnd'.2.2 h2 hk

/-- With pairwise distinct flattened keys, the task-based flatten is
also exactly the concatenation of the per-group entry lists. -/
theorem async_order_flatten_eq (nested : List (Str × List (Str × Order)))
    (hnd : (flatKeys nested).Nodup) :
    async_order_flatten nested = flatPairs nested := by
  unfold async_order_flatten
  have hgroups : ∀ p ∈ nested, (groupKeys p).Nodup := by
    intro p hp
    have : (flatKeys nested).Nodup := hnd
    rw [flatKeys, List.nodup_flatten] at this
    exact this.1 (groupKeys p) (List.mem_map_of_mem groupKeys hp)
  have hloc : nested.map localFlatten = nested.map groupPairs :=
    List.map_congr_left (fun p hp => localFlatten_eq p (hgroups p hp))
  rw [hloc]
  have hkeys : ((flatPairs nested).map Prod.fst).Nodup := by
    rw [flatPairs_keys]; exact hnd
  have h := extend_fold (nested.map groupPairs) [] hkeys (by simp)
  simpa [flatPairs] using h

/-- Closed form of create_nested_order_data: since every exchange label
and every order key within an exchange is fresh, the insert loops build
exactly the mapped range lists. -/
def nestedSpec (E O : Nat) (mk : Nat → Order) :
    List (Str × List (Str × Order)) :=
  (List.range E).map (fun i =>
    (exchangeKey i,
      (List.range O).map (fun j => (orderKey i j, mk (i * O + j)))))

theorem create_nested_eq (E O : Nat) (mk : Nat → Order) :
    create_nested_order_data E O mk = nestedSpec E O mk := by
  unfold create_nested_order_data nestedSpec
  have hinner : ∀ i : Nat,
      (List.range O).foldl
        (fun orders j => insertKV orders (orderKey i j) (mk (i * O + j))) []
      = (List.range O).map (fun j => (orderKey i j, mk (i * O + j))) := by
    intro i
    have h1 : (List.range O).foldl
        (fun orders j => insertKV orders (orderKey i j) (mk (i * O + j))) []
        = insertAll [] ((List.range O).map (fun j => (orderKey i j, mk (i * O + j)))) := by
      simp [insertAll, List.foldl_map]
    have hnd : (((List.range O).map (fun j => (orderKey i j, mk (i * O + j)))).map
        Prod.fst).Nodup := by
      rw [List.map_map]
      exact List.Nodup.map (orderKey_injective_right i) (List.nodup_range O)
    rw [h1, insertAll_of_fresh _ [] hnd (by simp)]
    simp
  simp only [hinner]
  have h2 : (List.range E).foldl
      (fun nested_orders i =>
        insertKV nested_orders (exchangeKey i)
          ((List.range O).map (fun j => (orderKey i j, mk (i * O + j))))) []
      = insertAll [] ((List.range E).map (fun i =>
          (exchangeKey i, (List.range O).map (fun j => (orderKey i j, mk (i * O + j)))))) := by
    simp [insertAll, List.foldl_map]
  have hnd : (((List.range E).map (fun i =>
      (exchangeKey i, (List.range O).map (fun j => (orderKey i j, mk (i * O + j)))))).map
      Prod.fst).Nodup := by
    rw [List.map_map]
    refine List.Nodup.map ?_ (List.nodup_range E)
    intro a b h
    exact exchangeKey_injective h
  rw [h2, insertAll_of_fresh _ [] hnd (by simp)]
  simp

theorem flatKeys_nestedSpec_nodup (E O : Nat) (mk : Nat → Order) :
    (flatKeys (nestedSpec E O mk)).Nodup := by
  rw [flatKeys, nestedSpec, List.map_map]
  have hg : (groupKeys ∘ fun i =>
      (exchangeKey i, (List.range O).map (fun j => (orderKey i j, mk (i * O + j)))))
      = fun i => (List.range O).map (fun j => flatKey (exchangeKey i) (orderKey i j)) := by
    funext i
    simp [groupKeys, List.map_map]
  rw [hg, List.nodup_flatten]
  constructor
  · intro l hl
    obtain ⟨i, hi, rfl⟩ := List.mem_map.mp hl
    refine List.Nodup.map ?_ (List.nodup_range O)
    intro a b hab
    exact (flatKey_pair_inj i a i b hab).2
  · rw [List.pairwise_map]
    refine List.Pairwise.imp ?_ (List.nodup_range E)
    intro i j hne x hx1 hx2
    obtain ⟨a, ha, rfl⟩ := List.mem_map.mp hx1
    obtain ⟨b, hb, he⟩ := List.mem_map.mp hx2
    exact hne ((flatKey_pair_inj i a j b he.symm).1)

theorem flatPairs_nestedSpec_length (E O : Nat) (mk : Nat → Order) :
    (flatPairs (nestedSpec E O mk)).length = E * O := by
  rw [flatPairs, nestedSpec, List.length_flatten, List.map_map, List.map_map]
  have h : ∀ i ∈ List.range E,
      ((List.length ∘ groupPairs) ∘ fun i =>
        (exchangeKey i, (List.range O).map (fun j => (orderKey i j, mk (i * O + j))))) i
      = (fun _ => O) i := by
    intro i _
    simp [groupPairs]
  rw [List.map_congr_left h, List.map_const', List.sum_replicate, List.length_range,
    smul_eq_mul]

/-- C7: for all E, O at least 1, flattening the nested order data of E
exchanges with O orders each yields a registry with exactly E times O
entries whose flattened keys are pairwise distinct. -/
theorem c7_flatten_entry_count (E O : Nat) (mk : Nat → Order)
    (_hE : 1 ≤ E) (_hO : 1 ≤ O) :
    (sync_order_flatten (create_nested_order_data E O mk)).length = E * O ∧
    ((sync_order_flatten (create_nested_order_data E O mk)).map Prod.fst).Nodup := by
  rw [create_nested_eq, sync_order_flatten_eq _ (flatKeys_nestedSpec_nodup E O mk)]
  refine ⟨flatPairs_nestedSpec_length E O mk, ?_⟩
  rw [flatPairs_keys]
  exact flatKeys_nestedSpec_nodup E O mk

/-- C7 witness: 2 exchanges of 2 orders flatten to 4 distinct entries. -/
theorem c7_witness :
    (sync_order_flatten (create_nested_order_data 2 2 (fun _ => sampleOrder))).length = 2 * 2 ∧
    ((sync_order_flatten (create_nested_order_data 2 2 (fun _ => sampleOrder))).map Prod.fst).Nodup :=
  c7_flatten_entry_count 2 2 (fun _ => sampleOrder) (by norm_num) (by norm_num)

theorem lookup_eq_some_of_nodup (l : List (Str × Order)) (k : Str) (v : Order)
    (hnd : (l.map Prod.fst).Nodup) (hm : (k, v) ∈ l) : l.lookup k = some v := by
  induction l with
  | nil => simp at hm
  | cons p t ih =>
    obtain ⟨pk, pv⟩ := p
    rw [List.map_cons] at hnd
    have hnd' := List.nodup_cons.mp hnd
    rcases List.mem_cons.mp hm with he | ht
    · rw [← he]
      simp [List.lookup]
    · have hk : k ≠ pk := by
        intro he
        apply hnd'.1
        have hmem := List.mem_map_of_mem (α := Str × Order) Prod.fst ht
        have hmem2 : k ∈ t.map Prod.fst := hmem
        rwa [he] at hmem2
      have hb : (k == pk) = false := beq_eq_false_iff_ne.mpr hk
      simp only [List.lookup_cons, hb]
      exact ih hnd'.2 ht

theorem mem_of_lookup_eq_some (l : List (Str × Order)) (k : Str) (v : Order)
    (h : l.lookup k = some v) : (k, v) ∈ l := by
  induction l with
  | nil => simp [List.lookup] at h
  | cons p t ih =>
    obtain ⟨pk, pv⟩ := p
    by_cases hk : k = pk
    · have hb : (k == pk) = true := beq_iff_eq.mpr hk
      simp only [List.lookup_cons, hb] at h
      have hv : pv = v := by simpa using h
      refine List.mem_cons.mpr (Or.inl ?_)
      rw [hk, hv]
    · have hb : (k == pk) = false := beq_eq_false_iff_ne.mpr hk
      simp only [List.lookup_cons, hb] at h
      exact List.mem_cons_of_mem (pk, pv) (ih h)

theorem lookup_eq_none_of_not_mem (l : List (Str × Order)) (k : Str)
    (h : k ∉ l.map Prod.fst) : l.lookup k = none := by
  induction l with
  | nil => rfl
  | cons p t ih =>
    obtain ⟨pk, pv⟩ := p
    rw [List.map_cons, List.mem_cons] at h
    push_neg at h
    have hb : (k == pk) = false := beq_eq_false_iff_ne.mpr h.1
    simp only [List.lookup_cons, hb]
    exact ih h.2

theorem lookup_perm_of_nodup (l1 l2 : List (Str × Order))
    (hperm : l1.Perm l2) (hnd : (l1.map Prod.fst).Nodup) (k : Str) :
    l1.lookup k = l2.lookup k := by
  have hnd2 : (l2.map Prod.fst).Nodup := ((hperm.map Prod.fst).nodup_iff).mp hnd
  cases h : l1.lookup k with
  | some v =>
    have hm := mem_of_lookup_eq_some l1 k v h
    exact (lookup_eq_some_of_nodup l2 k v hnd2 (hperm.mem_iff.mp hm)).symm
  | none =>
    have hk : k ∉ l1.map Prod.fst := by
      intro hmem
      obtain ⟨p, hp, hpk⟩ := List.mem_map.mp hmem
      have : l1.lookup k = some p.2 :=
        lookup_eq_some_of_nodup l1 k p.2 hnd (by rw [← hpk]; simpa using hp)
      rw [h] at this
      exact Option.noConfusion this
    have hk2 : k ∉ l2.map Prod.fst := fun hmem =>
      hk ((hperm.map Prod.fst).mem_iff.mpr hmem)
    exact (lookup_eq_none_of_not_mem l2 k hk2).symm

/-- C10: on any nested orders map whose flattened keys are pairwise
distinct, the task-fan-out flatten agrees with the sequential flatten
as a key-to-order mapping, for every ordering of the exchange groups. -/
theorem c10_async_flatten_eq_sync (nested nested' : List (Str × List (Str × Order)))
    (hperm : nested'.Perm nested) (hnd : (flatKeys nested).Nodup) (k : Str) :
    (async_order_flatten nested').lookup k = (sync_order_flatten nested).lookup k := by
  have hfkperm : (flatKeys nested').Perm (flatKeys nested) :=
    (hperm.map groupKeys).flatten
  have hnd' : (flatKeys nested').Nodup := hfkperm.nodup_iff.mpr hnd
  rw [async_order_flatten_eq nested' hnd', sync_order_flatten_eq nested hnd]
  have hpp : (flatPairs nested').Perm (flatPairs nested) :=
    (hperm.map groupPairs).flatten
  refine lookup_perm_of_nodup _ _ hpp ?_ k
  rw [flatPairs_keys]
  exact hnd'

/-- C10 witness: the agreement evaluated on the two-exchange nested map
with its groups visited in reversed order, at the first flattened key. -/
theorem c10_witness :
    (async_order_flatten (create_nested_order_data 2 1 (fun _ => sampleOrder)).reverse).lookup
        (flatKey (exchangeKey 0) (orderKey 0 0))
      = (sync_order_flatten (create_nested_order_data 2 1 (fun _ => sampleOrder))).lookup
        (flatKey (exchangeKey 0) (orderKey 0 0)) :=
  c10_async_flatten_eq_sync _ _
    (List.reverse_perm (create_nested_order_data 2 1 (fun _ => sampleOrder)))
    (by rw [create_nested_eq]; exact flatKeys_nestedSpec_nodup 2 1 (fun _ => sampleOrder))
    (flatKey (exchangeKey 0) (orderKey 0 0))

/-- BenchmarkResult from simple_plotter.rs, f64 timings as rationals. -/
structure BenchmarkResult : Type where
  name : Str
  operation_type : Str
  data_size : Nat
  time_ns : ℚ
  time_us : ℚ
  time_ms : ℚ
  throughput_ops_per_sec : ℚ
deriving DecidableEq

/-- BenchmarkResult::new with its derived fields: microseconds,
milliseconds and throughput are computed from the nanosecond timing. -/
def BenchmarkResult.new (name operation_type : Str) (data_size : Nat)
    (time_ns : ℚ) : BenchmarkResult :=
  { name := name
    operation_type := operation_type
    data_size := data_size
    time_ns := time_ns
    time_us := time_ns / 1000
    time_ms := time_ns / 1000000
    throughput_ops_per_sec := (data_size : ℚ) / (time_ns / 1000000000) }

/-- Comparator of the comparison-table sort: operation_type, then
data_size, both ascending; Rust sort_by with cmp().then(cmp()) is a
stable sort by this total preorder. -/
def tableLe (a b : BenchmarkResult) : Prop :=
  a.operation_type < b.operation_type ∨
  (a.operation_type = b.operation_type ∧ a.data_size ≤ b.data_size)

instance : DecidableRel tableLe := fun a b => by
  unfold tableLe; infer_instance

instance : IsTotal BenchmarkResult tableLe := by
  constructor
  intro a b
  rcases lt_trichotomy a.operation_type b.operation_type with h | h | h
  · exact Or.inl (Or.inl h)
  · rcases Nat.le_total a.data_size b.data_size with h2 | h2
    · exact Or.inl (Or.inr ⟨h, h2⟩)
    · exact Or.inr (Or.inr ⟨h.symm, h2⟩)
  · exact Or.inr (Or.inl h)

instance : IsTrans BenchmarkResult tableLe := by
  constructor
  intro a b c hab hbc
  rcases hab with h1 | ⟨h1, h1s⟩ <;> rcases hbc with h2 | ⟨h2, h2s⟩
  · exact Or.inl (lt_trans h1 h2)
  · exact Or.inl (h2 ▸ h1)
  · exact Or.inl (h1 ▸ h2)
  · exact Or.inr ⟨h1.trans h2, le_trans h1s h2s⟩

/-- Comparator of the per-group scalability sort: data_size ascending. -/
def sizeLe (a b : BenchmarkResult) : Prop :=
  a.data_size ≤ b.data_size

instance : DecidableRel sizeLe := fun a b => Nat.decLe a.data_size b.data_size

instance : IsTotal BenchmarkResult sizeLe :=
  ⟨fun a b => Nat.le_total a.data_size b.data_size⟩

instance : IsTrans BenchmarkResult sizeLe :=
  ⟨fun _ _ _ h1 h2 => le_trans h1 h2⟩

/-- The four classification strings of print_scalability_analysis with
their fixed thresholds. -/
def ratingOf (f : ℚ) : String :=
  if f < 1.2 then "🟢 Excellent (Sub-linear)"
  else if f < 1.5 then "🟡 Good (Near-linear)"
  else if f < 2.0 then "🟠 Fair (Super-linear)"
  else "🔴 Poor (Exponential)"

/-- Body of print_scalability_analysis on one already-sorted group:
when at least two results are present, take the first and last entries
and report size quotient, time quotient, scalability factor and its
rating; otherwise nothing is reported. -/
def scalability_core (sorted : List BenchmarkResult) :
    Option (ℚ × ℚ × ℚ × String) :=
  match sorted with
  | first :: second :: rest =>
    let last := (second :: rest).getLast (List.cons_ne_nil second rest)
    let sizeQuot : ℚ := (last.data_size : ℚ) / (first.data_size : ℚ)
    let timeQuot : ℚ := last.time_us / first.time_us
    let f : ℚ := timeQuot / sizeQuot
    some (sizeQuot, timeQuot, f, ratingOf f)
  | _ => none

/-- print_scalability_analysis on one group of results: sort a copy of
the group by data_size (stably) and analyse it. -/
def print_scalability_group (group : List BenchmarkResult) :
    Option (ℚ × ℚ × ℚ × String) :=
  scalability_core (List.insertionSort sizeLe group)

/-- One printed row of print_comparison_table. -/
structure TableRow : Type where
  operation_type : Str
  data_size : Nat
  time_us : ℚ
  per_order_ns : ℚ
  throughput_mops : ℚ
  efficiency_score : ℚ
deriving DecidableEq

/-- print_comparison_table: sort a copy of the results by operation
type then data size (stably), and emit one row of derived metrics per
result. -/
def print_comparison_table (results : List BenchmarkResult) : List TableRow :=
  (List.insertionSort tableLe results).map (fun r =>
    { operation_type := r.operation_type
      data_size := r.data_size
      time_us := r.time_us
      per_order_ns := r.time_ns / (r.data_size : ℚ)
      throughput_mops := r.throughput_ops_per_sec / 1000000
      efficiency_score := 1000 / (r.time_ns / (r.data_size : ℚ)) })

/-- The HashMap grouping of the analyses: the entries of one operation
type group, in encounter order. -/
def group_of (results : List BenchmarkResult) (op : Str) :
    List BenchmarkResult :=
  results.filter (fun r => r.operation_type == op)

theorem pairwise_head_le (a : BenchmarkResult) (t : List BenchmarkResult)
    (h : List.Pairwise sizeLe (a :: t)) :
    ∀ r ∈ a :: t, a.data_size ≤ r.data_size := by
  intro r hr
  rcases List.mem_cons.mp hr with he | ht
  · rw [he]
  · exact (List.pairwise_cons.mp h).1 r ht

theorem pairwise_le_getLast (l : List BenchmarkResult)
    (h : List.Pairwise sizeLe l) (hne : l ≠ []) :
    ∀ r ∈ l, r.data_size ≤ (l.getLast hne).data_size := by
  induction l with
  | nil => intro r hr; simp at hr
  | cons a t ih =>
    intro r hr
    cases t with
    | nil =>
      rcases List.mem_cons.mp hr with he | ht
      · rw [he]; exact le_refl _
      · simp at ht
    | cons b t2 =>
      rw [List.getLast_cons (List.cons_ne_nil b t2)]
      have hp := List.pairwise_cons.mp h
      rcases List.mem_cons.mp hr with he | ht
      · rw [he]
        exact hp.1 _ (List.getLast_mem (List.cons_ne_nil b t2))
      · exact ih hp.2 (List.cons_ne_nil b t2) r ht

/-- Two permuted lists that are both strictly increasing along an
asymmetric relation coincide. -/
theorem eq_of_perm_of_pairwise_asymm {α : Type} {lt : α → α → Prop}
    (hasymm : ∀ a b, lt a b → lt b a → False) :
    ∀ l1 l2 : List α, l1.Perm l2 →
      List.Pairwise lt l1 → List.Pairwise lt l2 → l1 = l2 := by
  intro l1
  induction l1 with
  | nil =>
    intro l2 hperm _ _
    exact (hperm.symm.eq_nil).symm
  | cons a t1 ih =>
    intro l2 hperm hp1 hp2
    cases l2 with
    | nil => exact absurd hperm.eq_nil (List.cons_ne_nil a t1)
    | cons b t2 =>
      have hab : a = b := by
        by_contra hne
        have ha2 : a ∈ b :: t2 := hperm.mem_iff.mp (List.mem_cons_self a t1)
        have hat2 : a ∈ t2 := by
          rcases List.mem_cons.mp ha2 with he | h
          · exact absurd he hne
          · exact h
        have hb1 : b ∈ a :: t1 := hperm.mem_iff.mpr (List.mem_cons_self b t2)
        have hbt1 : b ∈ t1 := by
          rcases List.mem_cons.mp hb1 with he | h
          · exact absurd he.symm hne
          · exact h
        have h1 : lt a b := (List.pairwise_cons.mp hp1).1 b hbt1
        have h2 : lt b a := (List.pairwise_cons.mp hp2).1 a hat2
        exact hasymm a b h1 h2
      subst hab
      have hperm' : t1.Perm t2 := hperm.cons_inv
      rw [ih t2 hperm' (List.pairwise_cons.mp hp1).2 (List.pairwise_cons.mp hp2).2]

/-- C5 counterexample part 1: first of the two sample results used to
show a factor is computed for a single repeated size. -/
def dupA : BenchmarkResult :=
  BenchmarkResult.new (strLit "dup_a") (strLit "Dup") 100 1000

/-- C5 counterexample part 2: second result with the same data size. -/
def dupB : BenchmarkResult :=
  BenchmarkResult.new (strLit "dup_b") (strLit "Dup") 100 2000

/-- C5 counterexample: a group holding two results of the same data
size has only one distinct size, yet the analysis still computes a
scalability factor, because the source only checks that the group has
at least two results. -/
theorem c5_single_size_counterexample :
    dupA.data_size = dupB.data_size ∧
    (print_scalability_group [dupA, dupB]).isSome = true :=
  ⟨rfl, rfl⟩

/-- C5 (amended): the analysis computes a scalability factor for a
group exactly when the group holds at least two results, distinct data
sizes or not.  When computed, it equals time quotient over size
quotient taken between a result of minimal data size and a result of
maximal data size in the group, with the time quotient last.time_us
over first.time_us and the size quotient last.data_size over
first.data_size, and the rating uses the fixed thresholds 1.2, 1.5 and
2.0. -/
theorem c5_scalability_analysis (group : List BenchmarkResult) :
    (group.length < 2 → print_scalability_group group = none) ∧
    (2 ≤ group.length →
      ∃ first last : BenchmarkResult,
        first ∈ group ∧ last ∈ group ∧
        (∀ r ∈ group, first.data_size ≤ r.data_size) ∧
        (∀ r ∈ group, r.data_size ≤ last.data_size) ∧
        print_scalability_group group =
          some ((last.data_size : ℚ) / (first.data_size : ℚ),
            last.time_us / first.time_us,
            (last.time_us / first.time_us)
              / ((last.data_size : ℚ) / (first.data_size : ℚ)),
            ratingOf ((last.time_us / first.time_us)
              / ((last.data_size : ℚ) / (first.data_size : ℚ))))) ∧
    (∀ f : ℚ,
      (f < 1.2 → ratingOf f = "🟢 Excellent (Sub-linear)") ∧
      (¬ f < 1.2 → f < 1.5 → ratingOf f = "🟡 Good (Near-linear)") ∧
      (¬ f < 1.5 → f < 2.0 → ratingOf f = "🟠 Fair (Super-linear)") ∧
      (¬ f < 2.0 → ratingOf f = "🔴 Poor (Exponential)")) := by
  refine ⟨?_, ?_, ?_⟩
  · intro hlen
    have hl : (List.insertionSort sizeLe group).length < 2 := by
      rw [(List.perm_insertionSort sizeLe group).length_eq]
      exact hlen
    unfold print_scalability_group
    cases hs : List.insertionSort sizeLe group with
    | nil => rfl
    | cons x t =>
      cases t with
      | nil => rfl
      | cons y rest =>
        rw [hs] at hl
        simp only [List.length_cons] at hl
        omega
  · intro hlen
    have hl : 2 ≤ (List.insertionSort sizeLe group).length := by
      rw [(List.perm_insertionSort sizeLe group).length_eq]
      exact hlen
    have hsorted : List.Pairwise sizeLe (List.insertionSort sizeLe group) :=
      List.sorted_insertionSort sizeLe group
    have hmem : ∀ r ∈ List.insertionSort sizeLe group, r ∈ group :=
      fun r hr => (List.perm_insertionSort sizeLe group).mem_iff.mp hr
    have hmem2 : ∀ r ∈ group, r ∈ List.insertionSort sizeLe group :=
      fun r hr => (List.perm_insertionSort sizeLe group).mem_iff.mpr hr
    unfold print_scalability_group
    cases hs : List.insertionSort sizeLe group with
    | nil =>
      rw [hs] at hl
      simp at hl
    | cons x t =>
      cases t with
      | nil =>
        rw [hs] at hl
        simp at hl
      | cons y rest =>
        rw [hs] at hsorted hmem hmem2
        refine ⟨x, (y :: rest).getLast (List.cons_ne_nil y rest),
          hmem x (by simp), hmem _ (List.mem_cons_of_mem x (List.getLast_mem _)),
          ?_, ?_, ?_⟩
        · intro r hr
          exact pairwise_head_le x (y :: rest) hsorted r (hmem2 r hr)
        · intro r hr
          have hx := pairwise_le_getLast (x :: y :: rest) hsorted
            (List.cons_ne_nil _ _) r (hmem2 r hr)
          rwa [List.getLast_cons (List.cons_ne_nil y rest)] at hx
        · rfl
  · intro f
    refine ⟨?_, ?_, ?_, ?_⟩
    · intro h
      rw [ratingOf, if_pos h]
    · intro h1 h2
      rw [ratingOf, if_neg h1, if_pos h2]
    · intro h2 h3
      have h1 : ¬ f < 1.2 := fun hc => h2 (lt_trans hc (by norm_num))
      rw [ratingOf, if_neg h1, if_neg h2, if_pos h3]
    · intro h3
      have h2 : ¬ f < 1.5 := fun hc => h3 (lt_trans hc (by norm_num))
      have h1 : ¬ f < 1.2 := fun hc => h3 (lt_trans hc (by norm_num))
      rw [ratingOf, if_neg h1, if_neg h2, if_neg h3]

/-- First sample result of the worked example: 100 orders, 46.5 us. -/
def srFirst : BenchmarkResult :=
  BenchmarkResult.new (strLit "sync_order_operations/single_threaded")
    (strLit "Sync Single") 100 46500

/-- Second sample result of the worked example: 10000 orders, 5870 us. -/
def srLast : BenchmarkResult :=
  BenchmarkResult.new (strLit "sync_order_operations/single_threaded")
    (strLit "Sync Single") 10000 5870000

/-- C5 witness: the amended statement evaluated on the concrete
two-result group of the worked example. -/
theorem c5_witness :
    ∃ first last : BenchmarkResult,
      first ∈ [srFirst, srLast] ∧ last ∈ [srFirst, srLast] ∧
      (∀ r ∈ [srFirst, srLast], first.data_size ≤ r.data_size) ∧
      (∀ r ∈ [srFirst, srLast], r.data_size ≤ last.data_size) ∧
      print_scalability_group [srFirst, srLast] =
        some ((last.data_size : ℚ) / (first.data_size : ℚ),
          last.time_us / first.time_us,
          (last.time_us / first.time_us)
            / ((last.data_size : ℚ) / (first.data_size : ℚ)),
          ratingOf ((last.time_us / first.time_us)
            / ((last.data_size : ℚ) / (first.data_size : ℚ)))) :=
  (c5_scalability_analysis [srFirst, srLast]).2.1 (by norm_num)

theorem scalability_example_value :
    print_scalability_group [srFirst, srLast]
      = some (100, 11740/93, 587/465, "🟡 Good (Near-linear)") := by
  have hred : print_scalability_group [srFirst, srLast]
      = some ((srLast.data_size : ℚ) / (srFirst.data_size : ℚ),
          srLast.time_us / srFirst.time_us,
          (srLast.time_us / srFirst.time_us)
            / ((srLast.data_size : ℚ) / (srFirst.data_size : ℚ)),
          ratingOf ((srLast.time_us / srFirst.time_us)
            / ((srLast.data_size : ℚ) / (srFirst.data_size : ℚ)))) := rfl
  have h1 : (srLast.data_size : ℚ) / (srFirst.data_size : ℚ) = 100 := by
    norm_num [srFirst, srLast, BenchmarkResult.new]
  have h2 : srLast.time_us / srFirst.time_us = 11740/93 := by
    norm_num [srFirst, srLast, BenchmarkResult.new]
  have h3 : (11740/93 : ℚ) / 100 = 587/465 := by norm_num
  have h4 : ratingOf (587/465) = "🟡 Good (Near-linear)" := by
    rw [ratingOf, if_neg (by norm_num), if_pos (by norm_num)]
  rw [hred, h1, h2, h3, h4]

/-- C6 counterexample: the worked example of the specification is
classified good/near-linear by the source, not fair/super-linear. -/
theorem c6_not_fair :
    (print_scalability_group [srFirst, srLast]).map (fun x => x.2.2.2)
      = some "🟡 Good (Near-linear)" ∧
    ("🟡 Good (Near-linear)" : String) ≠ "🟠 Fair (Super-linear)" := by
  refine ⟨?_, by decide⟩
  rw [scalability_example_value]
  rfl

/-- C6 (amended): for the group of sizes 100 and 10000 with times 46.5
and 5870 microseconds, the analysis reports size quotient 100, time
quotient 11740/93 (about 126.24), scalability factor 587/465 (about
1.2624, within 0.001 of 1.263), and the classification good/near-linear
rather than fair/super-linear. -/
theorem c6_example_classification :
    print_scalability_group [srFirst, srLast]
      = some (100, 11740/93, 587/465, "🟡 Good (Near-linear)") ∧
    (1.262 : ℚ) < 587/465 ∧ (587 : ℚ)/465 < 1.263 :=
  ⟨scalability_example_value, by norm_num, by norm_num⟩

/-- Sort key of the comparison table: operation type, then data size. -/
def tableKey (r : BenchmarkResult) : Str × Nat :=
  (r.operation_type, r.data_size)

/-- Strict version of the table ordering, on distinct keys. -/
def tableKeyLt (a b : BenchmarkResult) : Prop :=
  a.operation_type < b.operation_type ∨
  (a.operation_type = b.operation_type ∧ a.data_size < b.data_size)

theorem tableKeyLt_asymm (a b : BenchmarkResult)
    (h1 : tableKeyLt a b) (h2 : tableKeyLt b a) : False := by
  rcases h1 with h1 | ⟨h1, h1s⟩ <;> rcases h2 with h2 | ⟨h2, h2s⟩
  · exact lt_asymm h1 h2
  · exact absurd (h2 ▸ h1) (lt_irrefl _)
  · exact absurd (h1 ▸ h2) (lt_irrefl _)
  · exact lt_asymm h1s h2s

/-- Strict version of the group ordering, on distinct sizes. -/
def sizeLt (a b : BenchmarkResult) : Prop :=
  a.data_size < b.data_size

theorem sizeLt_asymm (a b : BenchmarkResult)
    (h1 : sizeLt a b) (h2 : sizeLt b a) : False :=
  lt_asymm h1 h2

theorem pairwise_tableKeyLt_of_sorted (l : List BenchmarkResult)
    (hs : List.Pairwise tableLe l) (hnd : (l.map tableKey).Nodup) :
    List.Pairwise tableKeyLt l := by
  have hne : List.Pairwise (fun a b => tableKey a ≠ tableKey b) l :=
    List.pairwise_map.mp hnd
  refine (hs.and hne).imp ?_
  intro a b hab
  obtain ⟨hle, hkne⟩ := hab
  rcases hle with h | ⟨hop, hsz⟩
  · exact Or.inl h
  · refine Or.inr ⟨hop, lt_of_le_of_ne hsz ?_⟩
    intro he
    exact hkne (by rw [tableKey, tableKey, hop, he])

theorem pairwise_sizeLt_of_sorted (l : List BenchmarkResult)
    (hs : List.Pairwise sizeLe l)
    (hne : List.Pairwise (fun a b => a.data_size ≠ b.data_size) l) :
    List.Pairwise sizeLt l := by
  refine (hs.and hne).imp ?_
  intro a b hab
  exact lt_of_le_of_ne hab.1 hab.2

/-- C8 (amended): when all pairs of operation type and data size in the
result set are distinct, the comparison table and the per-group
scalability analysis are permutation-invariant functions of the result
set; the model functions are pure, so rerunning them on the unchanged
input trivially reproduces the same output, matching the source, which
only reads the results through a shared reference and sorts a clone.
With duplicated pairs the guarantee fails: a permutation can swap which
of two results tied on data size is picked as the endpoint of a group. -/
theorem c8_perm_invariance (l1 l2 : List BenchmarkResult)
    (hperm : l1.Perm l2)
    (hnd : (l1.map tableKey).Nodup) :
    print_comparison_table l1 = print_comparison_table l2 ∧
    ∀ op : Str, print_scalability_group (group_of l1 op)
      = print_scalability_group (group_of l2 op) := by
  have hnd2 : (l2.map tableKey).Nodup := ((hperm.map tableKey).nodup_iff).mp hnd
  constructor
  · have hperm' : (List.insertionSort tableLe l1).Perm (List.insertionSort tableLe l2) :=
      ((List.perm_insertionSort tableLe l1).trans hperm).trans
        (List.perm_insertionSort tableLe l2).symm
    have hp1 : List.Pairwise tableKeyLt (List.insertionSort tableLe l1) :=
      pairwise_tableKeyLt_of_sorted _ (List.sorted_insertionSort tableLe l1)
        ((((List.perm_insertionSort tableLe l1).map tableKey).nodup_iff).mpr hnd)
    have hp2 : List.Pairwise tableKeyLt (List.insertionSort tableLe l2) :=
      pairwise_tableKeyLt_of_sorted _ (List.sorted_insertionSort tableLe l2)
        ((((List.perm_insertionSort tableLe l2).map tableKey).nodup_iff).mpr hnd2)
    have e1 := eq_of_perm_of_pairwise_asymm tableKeyLt_asymm _ _ hperm' hp1 hp2
    rw [print_comparison_table, print_comparison_table, e1]
  · intro op
    have hgperm : (group_of l1 op).Perm (group_of l2 op) :=
      hperm.filter (fun r : BenchmarkResult => r.operation_type == op)
    have hsizene : ∀ l : List BenchmarkResult, (l.map tableKey).Nodup →
        List.Pairwise (fun a b => a.data_size ≠ b.data_size) (group_of l op) := by
      intro l hl
      have hsub : ((group_of l op).map tableKey).Sublist (l.map tableKey) :=
        (List.filter_sublist l).map tableKey
      have hgnd : ((group_of l op).map tableKey).Nodup := hsub.nodup hl
      have hkeysne : List.Pairwise (fun a b => tableKey a ≠ tableKey b) (group_of l op) :=
        List.pairwise_map.mp hgnd
      refine hkeysne.imp_of_mem ?_
      intro a b ha hb hkne he
      have hopa : a.operation_type = op :=
        beq_iff_eq.mp (List.mem_filter.mp ha).2
      have hopb : b.operation_type = op :=
        beq_iff_eq.mp (List.mem_filter.mp hb).2
      exact hkne (by rw [tableKey, tableKey, hopa, hopb, he])
    have hperm' : (List.insertionSort sizeLe (group_of l1 op)).Perm
        (List.insertionSort sizeLe (group_of l2 op)) :=
      ((List.perm_insertionSort sizeLe _).trans hgperm).trans
        (List.perm_insertionSort sizeLe _).symm
    have hsymm : ∀ {a b : BenchmarkResult},
        a.data_size ≠ b.data_size → b.data_size ≠ a.data_size :=
      fun h => h.symm
    have hp1 : List.Pairwise sizeLt (List.insertionSort sizeLe (group_of l1 op)) :=
      pairwise_sizeLt_of_sorted _ (List.sorted_insertionSort sizeLe _)
        (((List.perm_insertionSort sizeLe _).pairwise_iff hsymm).mpr (hsizene l1 hnd))
    have hp2 : List.Pairwise sizeLt (List.insertionSort sizeLe (group_of l2 op)) :=
      pairwise_sizeLt_of_sorted _ (List.sorted_insertionSort sizeLe _)
        (((List.perm_insertionSort sizeLe _).pairwise_iff hsymm).mpr (hsizene l2 hnd2))
    have e2 := eq_of_perm_of_pairwise_asymm sizeLt_asymm _ _ hperm' hp1 hp2
    rw [print_scalability_group, print_scalability_group, e2]

/-- C8 witness: permutation invariance evaluated on the two-result
sample set, swapped. -/
theorem c8_witness :
    print_comparison_table [srLast, srFirst] = print_comparison_table [srFirst, srLast] ∧
    ∀ op : Str, print_scalability_group (group_of [srLast, srFirst] op)
      = print_scalability_group (group_of [srFirst, srLast] op) :=
  c8_perm_invariance [srLast, srFirst] [srFirst, srLast]
    (List.Perm.swap srFirst srLast []) (by decide)

/-- C8 counterexample data: three results of one operation type with a
tied data size, 100, 100 and 1000. -/
def cA : BenchmarkResult :=
  BenchmarkResult.new (strLit "a1") (strLit "A") 100 1000

/-- Second counterexample result, tied with the first on size. -/
def cB : BenchmarkResult :=
  BenchmarkResult.new (strLit "a2") (strLit "A") 100 2000

/-- Third counterexample result, the large size of the group. -/
def cC : BenchmarkResult :=
  BenchmarkResult.new (strLit "a3") (strLit "A") 1000 10000

/-- C8 counterexample: swapping two results tied on data size changes
which one the stable sort puts first, hence the reported time quotient
and scalability factor of their group: the analyses are not
order-independent on result sets with duplicated sizes. -/
theorem c8_tie_counterexample :
    ([cB, cA, cC] : List BenchmarkResult).Perm [cA, cB, cC] ∧
    print_scalability_group (group_of [cA, cB, cC] (strLit "A"))
      ≠ print_scalability_group (group_of [cB, cA, cC] (strLit "A")) := by
  refine ⟨List.Perm.swap cA cB [cC], ?_⟩
  have hg1 : group_of [cA, cB, cC] (strLit "A") = [cA, cB, cC] := rfl
  have hg2 : group_of [cB, cA, cC] (strLit "A") = [cB, cA, cC] := rfl
  rw [hg1, hg2]
  have h1 : print_scalability_group [cA, cB, cC]
      = some ((cC.data_size : ℚ) / (cA.data_size : ℚ), cC.time_us / cA.time_us,
          (cC.time_us / cA.time_us) / ((cC.data_size : ℚ) / (cA.data_size : ℚ)),
          ratingOf ((cC.time_us / cA.time_us) / ((cC.data_size : ℚ) / (cA.data_size : ℚ)))) := rfl
  have h2 : print_scalability_group [cB, cA, cC]
      = some ((cC.data_size : ℚ) / (cB.data_size : ℚ), cC.time_us / cB.time_us,
          (cC.time_us / cB.time_us) / ((cC.data_size : ℚ) / (cB.data_size : ℚ)),
          ratingOf ((cC.time_us / cB.time_us) / ((cC.data_size : ℚ) / (cB.data_size : ℚ)))) := rfl
  rw [h1, h2]
  intro hcontra
  simp only [Option.some.injEq, Prod.mk.injEq] at hcontra
  have ht : cC.time_us / cA.time_us = cC.time_us / cB.time_us := hcontra.2.1
  norm_num [cA, cB, cC, BenchmarkResult.new] at ht

/-- Rust str::split on the slash character: splitting an empty string
gives one empty segment, a separator at either end gives an empty
segment on that side. -/
def splitOnSlash : Str → List Str
  | [] => [[]]
  | c :: rest =>
    if c = 47 then [] :: splitOnSlash rest
    else
      match splitOnSlash rest with
      | h :: t => (c :: h) :: t
      | [] => [[c]]

theorem splitOnSlash_ne_nil (s : Str) : splitOnSlash s ≠ [] := by
  induction s with
  | nil => simp [splitOnSlash]
  | cons c rest ih =>
    rw [splitOnSlash]
    by_cases h : c = 47
    · simp [h]
    · rw [if_neg h]
      cases hs : splitOnSlash rest with
      | nil => simp
      | cons a t => simp

theorem splitOnSlash_no_sep (s : Str) (h : 47 ∉ s) : splitOnSlash s = [s] := by
  induction s with
  | nil => rfl
  | cons c rest ih =>
    have hc : c ≠ 47 := fun he => h (he ▸ List.mem_cons_self c rest)
    have hr : 47 ∉ rest := fun hm => h (List.mem_cons_of_mem c hm)
    rw [splitOnSlash, if_neg hc, ih hr]

/-- Rust usize::from_str: an optional leading plus sign followed by at
least one decimal digit, rejected when the value does not fit in the
64-bit usize. -/
def parseUsize (s : Str) : Option Nat :=
  let ds := match s with
    | 43 :: rest => rest
    | _ => s
  if ds ≠ [] ∧ ∀ c ∈ ds, 48 ≤ c ∧ c ≤ 57 then
    let v := ds.foldl (fun acc c => acc * 10 + (c - 48)) 0
    if v < U64_MOD then some v else none
  else none

/-- parse_benchmark_name from plot_results.rs: split the directory name
on slashes, map the first two segments to a human operation label, and
parse the last segment as the data size, defaulting to 1. -/
def parse_benchmark_name (name : Str) : Str × Nat :=
  let parts := splitOnSlash name
  let operation_type :=
    if 2 ≤ parts.length then
      let p0 := parts.getD 0 []
      let p1 := parts.getD 1 []
      if p0 = strLit "sync_order_operations" ∧ p1 = strLit "single_threaded" then
        strLit "Sync Single"
      else if p0 = strLit "sync_order_operations" ∧ p1 = strLit "concurrent" then
        strLit "Sync Concurrent"
      else if p0 = strLit "async_order_operations" ∧ p1 = strLit "async" then
        strLit "Async"
      else if p0 = strLit "order_flattening" ∧ p1 = strLit "sync" then
        strLit "Flatten Sync"
      else if p0 = strLit "order_flattening" ∧ p1 = strLit "async" then
        strLit "Flatten Async"
      else if p0 = strLit "hft_order_simulation" then
        strLit "HFT Simulation"
      else if p0 = strLit "trillion_scale_orders" then
        strLit "Trillion Scale"
      else p0 ++ strLit " " ++ p1
    else parts.getD 0 []
  let data_size :=
    match parts.getLast? with
    | some last_part => (parseUsize last_part).getD 1
    | none => 1
  (operation_type, data_size)

/-- C9: for every directory name, the parsed data size is the trailing
slash-separated segment read as an unsigned integer when that read
succeeds, and the literal 1 when it fails; a name without any slash is
its own single trailing segment. -/
theorem c9_parse_data_size (name : Str) :
    (∀ s n, (splitOnSlash name).getLast? = some s → parseUsize s = some n →
        (parse_benchmark_name name).2 = n) ∧
    (∀ s, (splitOnSlash name).getLast? = some s → parseUsize s = none →
        (parse_benchmark_name name).2 = 1) ∧
    (47 ∉ name → (parse_benchmark_name name).2 = (parseUsize name).getD 1) := by
  refine ⟨?_, ?_, ?_⟩
  · intro s n hlast hp
    rw [parse_benchmark_name]
    simp only [hlast, hp]
    rfl
  · intro s hlast hp
    rw [parse_benchmark_name]
    simp only [hlast, hp]
    rfl
  · intro hno
    rw [parse_benchmark_name]
    simp only [splitOnSlash_no_sep name hno]
    rfl

/-- C9 witness: a well-formed name parses to its trailing size and a
name without digits falls back to 1. -/
theorem c9_witness :
    (parse_benchmark_name (strLit "sync_order_operations/single_threaded/100")).2 = 100 ∧
    (parse_benchmark_name (strLit "report")).2 = 1 :=
  ⟨(c9_parse_data_size (strLit "sync_order_operations/single_threaded/100")).1
      (strLit "100") 100 (by decide) (by decide),
   (c9_parse_data_size (strLit "report")).2.2 (by decide)⟩
